import Mathlib

/-!
Shallow embedding of `dna_pattern_finder.py` (DNA Pattern Finder).

Strings are modelled as `List Char`; Python exceptions are modelled with
`Except PyError`; float results (GC percentages) are modelled exactly with
`Rat`.  Each definition below mirrors one function of the source file.
-/

/-- Python exceptions that the analysis core of the program can raise. -/
inductive PyError where
  /-- `ValueError("File is empty or contains no sequence data.")` -/
  | emptySequence : PyError
  /-- `ValueError(f"Invalid base '{base}' found in file.")` -/
  | invalidResidue : Char → PyError
  /-- `KeyError` from `base_count[base] += 1` on a key outside the dict. -/
  | keyError : Char → PyError
  /-- `ZeroDivisionError` from `gc_bases / dna_length` when the length is 0. -/
  | zeroDivision : PyError
  /-- `ValueError("range() arg 3 must not be zero")` from `range(0, n, 0)`. -/
  | rangeStepZero : PyError
deriving DecidableEq, Repr

deriving instance DecidableEq for Except

/-- `VALID_BASES = "ACGT"` -/
def VALID_BASES : List Char := ['A', 'C', 'G', 'T']

/-- The normalization performed by `load_sequence`:
`"".join(raw_text.split()).upper()` — remove every whitespace character
anywhere in the text, then uppercase what remains. -/
def normalize_raw (raw : List Char) : List Char :=
  (raw.filter (fun c => !c.isWhitespace)).map Char.toUpper

/-- `load_sequence` (file reading aside): normalize the raw text, fail on an
empty result, fail on the first character outside `VALID_BASES`, otherwise
return the normalized sequence. -/
def load_sequence (raw : List Char) : Except PyError (List Char) :=
  let sequence := normalize_raw raw
  if sequence = [] then
    .error .emptySequence
  else
    match sequence.find? (fun c => decide (c ∉ VALID_BASES)) with
    | some c => .error (.invalidResidue c)
    | none => .ok sequence

/-- The dictionary `{A: _, C: _, G: _, T: _}` built by `get_base_count`. -/
structure BaseCount where
  A : Nat
  C : Nat
  G : Nat
  T : Nat
deriving DecidableEq, Repr

/-- `base_count[base] += 1`: increment the entry for `ch`, or raise `KeyError`
when `ch` is not one of the four keys. -/
def bump_base (bc : BaseCount) (ch : Char) : Except PyError BaseCount :=
  if ch = 'A' then .ok { bc with A := bc.A + 1 }
  else if ch = 'C' then .ok { bc with C := bc.C + 1 }
  else if ch = 'G' then .ok { bc with G := bc.G + 1 }
  else if ch = 'T' then .ok { bc with T := bc.T + 1 }
  else .error (.keyError ch)

/-- The `for base in sequence: base_count[base] += 1` loop. -/
def count_loop (bc : BaseCount) : List Char → Except PyError BaseCount
  | [] => .ok bc
  | ch :: rest =>
    match bump_base bc ch with
    | .error e => .error e
    | .ok bc' => count_loop bc' rest

/-- `get_base_count`: start from all-zero counts and tally every character. -/
def get_base_count (sequence : List Char) : Except PyError BaseCount :=
  count_loop ⟨0, 0, 0, 0⟩ sequence

/-- `calculate_gc_content`: `(G + C) / len * 100`, with the Python
`ZeroDivisionError` surfacing when the sequence is empty. -/
def calculate_gc_content (sequence : List Char) : Except PyError Rat :=
  match get_base_count sequence with
  | .error e => .error e
  | .ok bc =>
    if sequence.length = 0 then .error .zeroDivision
    else .ok (((bc.G + bc.C : Nat) : Rat) / (sequence.length : Rat) * 100)

/-- The exact GC percentage of a character list, as a rational. -/
def gc_value (s : List Char) : Rat :=
  ((s.count 'G' + s.count 'C' : Nat) : Rat) / (s.length : Rat) * 100

/-- `find_motif_positions`: uppercase the motif, then scan every start offset
`i` in `range(len(sequence) - len(motif) + 1)` and keep those where the slice
of the motif's length equals the motif.  The range bound is computed over `Int`
because Python's `range` is empty when `len(sequence) - len(motif) + 1 ≤ 0`. -/
def find_motif_positions (sequence motif : List Char) : List Nat :=
  let motifU := motif.map Char.toUpper
  let bound : Int := (sequence.length : Int) - (motifU.length : Int) + 1
  (List.range bound.toNat).filter
    (fun i => decide ((sequence.drop i).take motifU.length = motifU))

/-- One step of `get_valid_window_size`'s retry loop, fed by the successive
results of `int(input(...))` (`none` models a parse `ValueError`): the first
parsed value `w` with `0 < w ≤ sequence_length` is returned, anything else is
rejected and the loop continues. -/
def get_valid_window_size (sequence_length : Nat) :
    List (Option Int) → Option Int
  | [] => none
  | none :: rest => get_valid_window_size sequence_length rest
  | some w :: rest =>
    if 0 < w ∧ w ≤ (sequence_length : Int) then some w
    else get_valid_window_size sequence_length rest

/-- The body of `calculate_window_gc`'s `for start in range(0, len, w)` loop:
slice the window, skip it when empty, otherwise append its GC percentage,
propagating any exception from `calculate_gc_content`. -/
def windowGCLoop (sequence : List Char) (w : Nat) :
    List Nat → List Rat → Except PyError (List Rat)
  | [], acc => .ok acc
  | st :: rest, acc =>
    let window := (sequence.drop st).take w
    if window = [] then windowGCLoop sequence w rest acc
    else
      match calculate_gc_content window with
      | .error e => .error e
      | .ok gc => windowGCLoop sequence w rest (acc ++ [gc])

/-- `calculate_window_gc`: `range(0, len, w)` raises `ValueError` when `w = 0`,
is empty when `w < 0`, and otherwise enumerates `0, w, 2w, …` below `len` —
exactly `⌈len / w⌉` starts. -/
def calculate_window_gc (sequence : List Char) (window_size : Int) :
    Except PyError (List Rat) :=
  if window_size = 0 then .error .rangeStepZero
  else if window_size < 0 then .ok []
  else
    let w := window_size.toNat
    let starts := (List.range ((sequence.length + w - 1) / w)).map (· * w)
    windowGCLoop sequence w starts []

/-- The list of non-overlapping windows of width `w` that
`calculate_window_gc` visits, in scan order. -/
def seqWindows (s : List Char) (w : Nat) : List (List Char) :=
  (List.range ((s.length + w - 1) / w)).map (fun k => (s.drop (k * w)).take w)

/-- `start_codon = "ATG"` -/
def start_codon : List Char := ['A', 'T', 'G']

/-- `stop_codons = ("TAA", "TAG", "TGA")` -/
def stop_codons : List (List Char) :=
  [['T', 'A', 'A'], ['T', 'A', 'G'], ['T', 'G', 'A']]

/-- The inner `while j <= sequence_length - 3` scan of `find_orfs`, advancing
`j` by 3 and returning `j + 2` at the first in-frame stop codon.  `fuel`
bounds the recursion; `find_orfs_inner` supplies more fuel than the loop can
consume, so the scan always ends by failing the `j + 3 ≤ length` test. -/
def orf_inner_scan (s : List Char) : Nat → Nat → Option Nat
  | _, 0 => none
  | j, fuel + 1 =>
    if j + 3 ≤ s.length then
      if (s.drop j).take 3 ∈ stop_codons then some (j + 2)
      else orf_inner_scan s (j + 3) fuel
    else none

/-- The inner stop-codon scan of `find_orfs`, started at offset `j`. -/
def find_orfs_inner (s : List Char) (j : Nat) : Option Nat :=
  orf_inner_scan s j (s.length + 1)

/-- One iteration of the outer loop of `find_orfs` at offset `i`: a start
codon at `i` contributes `(i, end)` exactly when the inner scan from `i + 3`
finds an in-frame stop. -/
def orf_at (s : List Char) (i : Nat) : Option (Nat × Nat) :=
  if (s.drop i).take 3 = start_codon then
    (find_orfs_inner s (i + 3)).map (fun e => (i, e))
  else none

/-- `find_orfs`: the outer `while i <= sequence_length - 3` loop advances `i`
by exactly 1 in every branch, so it is the scan of every
`i ∈ range(len - 2)`, collecting the records in scan order. -/
def find_orfs (s : List Char) : List (Nat × Nat) :=
  (List.range (s.length - 2)).filterMap (orf_at s)

/-- A sequence over the `{A, C, G, T}` alphabet. -/
def ValidSeq (s : List Char) : Prop := ∀ c ∈ s, c ∈ VALID_BASES

instance (s : List Char) : Decidable (ValidSeq s) := by
  unfold ValidSeq; infer_instance

theorem count_loop_valid (s : List Char) :
    ∀ bc : BaseCount, ValidSeq s →
      count_loop bc s = .ok ⟨bc.A + s.count 'A', bc.C + s.count 'C',
        bc.G + s.count 'G', bc.T + s.count 'T'⟩ := by
  induction s with
  | nil => intro bc _; simp [count_loop]
  | cons ch rest ih =>
    intro bc h
    have hch : ch ∈ VALID_BASES := h ch (List.mem_cons_self ch rest)
    have hrest : ValidSeq rest := fun c hc => h c (List.mem_cons_of_mem _ hc)
    simp only [VALID_BASES, List.mem_cons, List.not_mem_nil, or_false] at hch
    rcases hch with rfl | rfl | rfl | rfl <;>
      simp [count_loop, bump_base, ih _ hrest, List.count_cons] <;> omega

theorem count_loop_invalid (s : List Char) :
    ∀ bc : BaseCount, (∃ c ∈ s, c ∉ VALID_BASES) →
      ∃ c, c ∉ VALID_BASES ∧ count_loop bc s = .error (.keyError c) := by
  induction s with
  | nil => intro bc h; simp at h
  | cons ch rest ih =>
    intro bc h
    by_cases hch : ch ∈ VALID_BASES
    · have hrest : ∃ c ∈ rest, c ∉ VALID_BASES := by
        rcases h with ⟨c, hc, hcv⟩
        rcases List.mem_cons.1 hc with rfl | hc
        · exact absurd hch hcv
        · exact ⟨c, hc, hcv⟩
      simp only [VALID_BASES, List.mem_cons, List.not_mem_nil, or_false] at hch
      rcases hch with rfl | rfl | rfl | rfl <;>
        simpa [count_loop, bump_base] using ih _ hrest
    · refine ⟨ch, hch, ?_⟩
      have hb : bump_base bc ch = .error (.keyError ch) := by
        simp only [VALID_BASES, List.mem_cons, List.not_mem_nil, or_false,
          not_or] at hch
        simp [bump_base, hch.1, hch.2.1, hch.2.2.1, hch.2.2.2]
      simp [count_loop, hb]

theorem get_base_count_valid {s : List Char} (h : ValidSeq s) :
    get_base_count s =
      .ok ⟨s.count 'A', s.count 'C', s.count 'G', s.count 'T'⟩ := by
  simpa using count_loop_valid s ⟨0, 0, 0, 0⟩ h

theorem counts_sum {s : List Char} (h : ValidSeq s) :
    s.count 'A' + s.count 'C' + s.count 'G' + s.count 'T' = s.length := by
  induction s with
  | nil => simp
  | cons ch rest ih =>
    have hch : ch ∈ VALID_BASES := h ch (List.mem_cons_self ch rest)
    have hrest : ValidSeq rest := fun c hc => h c (List.mem_cons_of_mem _ hc)
    have ihr := ih hrest
    simp only [VALID_BASES, List.mem_cons, List.not_mem_nil, or_false] at hch
    rcases hch with rfl | rfl | rfl | rfl <;>
      simp [List.count_cons, List.length_cons] <;> omega

theorem calculate_gc_content_valid {s : List Char} (hv : ValidSeq s)
    (hs : s ≠ []) : calculate_gc_content s = .ok (gc_value s) := by
  have hlen : s.length ≠ 0 := by
    simpa [List.length_eq_zero] using hs
  simp [calculate_gc_content, get_base_count_valid hv, hlen, gc_value]

theorem calculate_gc_content_invalid {s : List Char}
    (h : ∃ c ∈ s, c ∉ VALID_BASES) :
    ∃ c, c ∉ VALID_BASES ∧ calculate_gc_content s = .error (.keyError c) := by
  obtain ⟨c, hcv, hce⟩ := count_loop_invalid s ⟨0, 0, 0, 0⟩ h
  exact ⟨c, hcv, by simp [calculate_gc_content, get_base_count, hce]⟩

/-- C9: on an alphabet-valid string, `get_base_count` succeeds with all four
keys mapped to the character counts, which sum to the string's length; on a
string with any character outside {A, C, G, T} both `get_base_count` and
`calculate_gc_content` fail with a `KeyError` instead of returning a value. -/
theorem get_base_count_total_spec (s : List Char) :
    (ValidSeq s →
      get_base_count s =
          .ok ⟨s.count 'A', s.count 'C', s.count 'G', s.count 'T'⟩ ∧
        s.count 'A' + s.count 'C' + s.count 'G' + s.count 'T' = s.length) ∧
    ((∃ c ∈ s, c ∉ VALID_BASES) →
      (∃ c, get_base_count s = .error (.keyError c)) ∧
        ∃ c, calculate_gc_content s = .error (.keyError c)) := by
  constructor
  · intro hv
    exact ⟨get_base_count_valid hv, counts_sum hv⟩
  · intro h
    obtain ⟨c, _, hc⟩ := count_loop_invalid s ⟨0, 0, 0, 0⟩ h
    obtain ⟨c', _, hc'⟩ := calculate_gc_content_invalid h
    exact ⟨⟨c, hc⟩, ⟨c', hc'⟩⟩

/-- Witness for C9 at the spec's scenario `"AACGT"` and at `"ACGTX"`. -/
theorem get_base_count_total_spec_witness :
    get_base_count ['A', 'A', 'C', 'G', 'T'] = .ok ⟨2, 1, 1, 1⟩ ∧
      ∃ c, get_base_count ['A', 'C', 'G', 'T', 'X'] = .error (.keyError c) := by
  constructor
  · have h := ((get_base_count_total_spec ['A', 'A', 'C', 'G', 'T']).1
      (by decide)).1
    rw [h]; decide
  · exact ((get_base_count_total_spec ['A', 'C', 'G', 'T', 'X']).2
      ⟨'X', by decide, by decide⟩).1

/-- C6: `calculate_gc_content` fails with the empty-input error
(`ZeroDivisionError` in the source) exactly when the sequence is empty, and on
a non-empty alphabet-valid sequence returns exactly
`100 * (count G + count C) / length`. -/
theorem calculate_gc_content_spec (s : List Char) (hv : ValidSeq s) :
    (calculate_gc_content s = .error .zeroDivision ↔ s = []) ∧
    (s ≠ [] →
      calculate_gc_content s =
        .ok (100 * ((s.count 'G' + s.count 'C' : Nat) : Rat) /
          (s.length : Rat))) := by
  have hval : s ≠ [] →
      calculate_gc_content s =
        .ok (100 * ((s.count 'G' + s.count 'C' : Nat) : Rat) /
          (s.length : Rat)) := by
    intro hs
    rw [calculate_gc_content_valid hv hs, gc_value]
    congr 1
    ring
  refine ⟨⟨?_, ?_⟩, hval⟩
  · intro h
    by_contra hs
    rw [hval hs] at h
    cases h
  · intro h
    subst h
    decide

/-- Witness for C6 at the spec's scenario `gcPercentage("AACGT") = 40`. -/
theorem calculate_gc_content_spec_witness :
    calculate_gc_content ['A', 'A', 'C', 'G', 'T'] = .ok 40 := by
  have h := (calculate_gc_content_spec ['A', 'A', 'C', 'G', 'T']
    (by decide)).2 (by decide)
  rw [h]
  with_unfolding_all rfl

/-- C7: loading a sequence strips all whitespace, uppercases the remainder,
fails with the empty-sequence error exactly when nothing remains, fails with
`InvalidResidue` naming the first character outside {A, C, G, T} in scan
order, and otherwise returns the normalized sequence unchanged. -/
theorem load_sequence_spec (raw : List Char) :
    (load_sequence raw = .error .emptySequence ↔ normalize_raw raw = []) ∧
    (∀ i : Fin (normalize_raw raw).length,
      (normalize_raw raw).get i ∉ VALID_BASES →
      (∀ j : Fin (normalize_raw raw).length,
        (j : Nat) < (i : Nat) → (normalize_raw raw).get j ∈ VALID_BASES) →
      load_sequence raw = .error (.invalidResidue ((normalize_raw raw).get i))) ∧
    ((∀ c ∈ normalize_raw raw, c ∈ VALID_BASES) → normalize_raw raw ≠ [] →
      load_sequence raw = .ok (normalize_raw raw)) := by
  refine ⟨⟨?_, ?_⟩, ?_, ?_⟩
  · intro h
    by_contra hne
    simp only [load_sequence] at h
    rw [if_neg hne] at h
    cases hf : (normalize_raw raw).find? (fun c => decide (c ∉ VALID_BASES)) with
    | some c => rw [hf] at h; simp at h
    | none => rw [hf] at h; simp at h
  · intro h
    simp [load_sequence, h]
  · intro i hbad hbefore
    have hne : normalize_raw raw ≠ [] := by
      intro h
      have hl : (normalize_raw raw).length = 0 := by rw [h]; rfl
      have := i.isLt
      omega
    have hfind : (normalize_raw raw).find? (fun c => decide (c ∉ VALID_BASES)) =
        some ((normalize_raw raw).get i) := by
      rw [List.find?_eq_some_iff_getElem]
      refine ⟨by simpa using hbad, i.1, i.isLt, ?_, ?_⟩
      · simp [List.get_eq_getElem]
      · intro j hj
        have hv := hbefore ⟨j, lt_trans hj i.isLt⟩ hj
        simp only [List.get_eq_getElem] at hv
        simpa using hv
    simp only [load_sequence]
    rw [if_neg hne, hfind]
  · intro hall hne
    have hfind : (normalize_raw raw).find? (fun c => decide (c ∉ VALID_BASES)) =
        none := by
      rw [List.find?_eq_none]
      intro x hx
      simpa using hall x hx
    simp only [load_sequence]
    rw [if_neg hne, hfind]

/-- Witness for C7: raw text with lowercase residues and an inner blank
normalizes to `"ACGT"` and loads successfully. -/
theorem load_sequence_spec_witness :
    load_sequence ['a', 'c', ' ', 'g', 't'] =
      .ok (normalize_raw ['a', 'c', ' ', 'g', 't']) :=
  (load_sequence_spec ['a', 'c', ' ', 'g', 't']).2.2 (by decide) (by decide)

theorem map_toUpper_valid {m : List Char} (hm : ValidSeq m) :
    m.map Char.toUpper = m := by
  have h : ∀ c ∈ m, c.toUpper = id c := by
    intro c hc
    have hv := hm c hc
    simp only [VALID_BASES, List.mem_cons, List.not_mem_nil, or_false] at hv
    rcases hv with rfl | rfl | rfl | rfl <;> decide
  rw [List.map_congr_left h, List.map_id]

/-- C4: for an alphabet-valid motif no longer than the sequence, the motif
search returns exactly the start offsets whose slice equals the motif
(overlapping occurrences included), in strictly ascending order, and
`findPositions("AAAA", "AA") = [0, 1, 2]`. -/
theorem find_motif_positions_spec (s m : List Char) (hm : ValidSeq m)
    (h1 : 1 ≤ m.length) (h2 : m.length ≤ s.length) :
    (∀ i : Nat, i ∈ find_motif_positions s m ↔
      i + m.length ≤ s.length ∧ (s.drop i).take m.length = m) ∧
    List.Sorted (· < ·) (find_motif_positions s m) ∧
    find_motif_positions ['A', 'A', 'A', 'A'] ['A', 'A'] = [0, 1, 2] := by
  have hU : m.map Char.toUpper = m := map_toUpper_valid hm
  refine ⟨?_, ?_, by decide⟩
  · intro i
    simp only [find_motif_positions, hU, List.mem_filter, List.mem_range,
      decide_eq_true_eq]
    constructor
    · rintro ⟨hi, hmatch⟩
      exact ⟨by omega, hmatch⟩
    · rintro ⟨hi, hmatch⟩
      exact ⟨by omega, hmatch⟩
  · exact List.Pairwise.sublist (List.filter_sublist _) (List.pairwise_lt_range _)

/-- Witness for C4 at the spec's scenario `findPositions("AAAA", "AA")`. -/
theorem find_motif_positions_spec_witness :
    find_motif_positions ['A', 'A', 'A', 'A'] ['A', 'A'] = [0, 1, 2] :=
  (find_motif_positions_spec ['A', 'A', 'A', 'A'] ['A', 'A'] (by decide)
    (by decide) (by decide)).2.2

/-- C8: the motif search is a total function: with no match it returns the
empty list rather than an error, and a motif longer than the sequence also
yields the empty list rather than a failure. -/
theorem find_motif_positions_defensive (s m : List Char) :
    (s.length < m.length → find_motif_positions s m = []) ∧
    ((∀ i : Nat,
        (s.drop i).take (m.map Char.toUpper).length ≠ m.map Char.toUpper) →
      find_motif_positions s m = []) := by
  constructor
  · intro h
    have hb : ((s.length : Int) - ((m.map Char.toUpper).length : Int) +
        1).toNat = 0 := by
      simp only [List.length_map]
      omega
    simp only [find_motif_positions]
    rw [hb]
    simp
  · intro h
    simp only [find_motif_positions]
    apply List.filter_eq_nil_iff.2
    intro a _
    simpa using h a

/-- Witness for C8: a motif longer than the sequence returns the empty
list. -/
theorem find_motif_positions_defensive_witness :
    find_motif_positions ['A'] ['A', 'A'] = [] :=
  (find_motif_positions_defensive ['A'] ['A', 'A']).1 (by decide)

theorem orf_inner_scan_some (s : List Char) :
    ∀ (fuel j e : Nat), orf_inner_scan s j fuel = some e →
      ∃ k, e = j + 3 * k + 2 ∧ j + 3 * k + 3 ≤ s.length ∧
        (s.drop (j + 3 * k)).take 3 ∈ stop_codons ∧
        ∀ m, m < k → (s.drop (j + 3 * m)).take 3 ∉ stop_codons := by
  intro fuel
  induction fuel with
  | zero => intro j e h; simp [orf_inner_scan] at h
  | succ fuel ih =>
    intro j e h
    simp only [orf_inner_scan] at h
    by_cases h3 : j + 3 ≤ s.length
    · rw [if_pos h3] at h
      by_cases hstop : (s.drop j).take 3 ∈ stop_codons
      · rw [if_pos hstop] at h
        injection h with h'
        subst h'
        exact ⟨0, by omega, by omega, by simpa using hstop,
          fun m hm => absurd hm (Nat.not_lt_zero m)⟩
      · rw [if_neg hstop] at h
        obtain ⟨k, hk1, hk2, hk3, hk4⟩ := ih (j + 3) e h
        refine ⟨k + 1, by omega, by omega, ?_, ?_⟩
        · have harith : j + 3 * (k + 1) = j + 3 + 3 * k := by ring
          rw [harith]
          exact hk3
        · intro m hm
          match m with
          | 0 => simpa using hstop
          | m' + 1 =>
            have harith : j + 3 * (m' + 1) = j + 3 + 3 * m' := by ring
            rw [harith]
            exact hk4 m' (by omega)
    · rw [if_neg h3] at h
      cases h

theorem orf_at_eq_some {s : List Char} {i : Nat} {p : Nat × Nat}
    (h : orf_at s i = some p) :
    p.1 = i ∧ (s.drop i).take 3 = start_codon ∧
      find_orfs_inner s (i + 3) = some p.2 := by
  unfold orf_at at h
  by_cases hstart : (s.drop i).take 3 = start_codon
  · rw [if_pos hstart] at h
    cases he : find_orfs_inner s (i + 3) with
    | none => rw [he] at h; cases h
    | some e =>
      rw [he] at h
      simp only [Option.map_some'] at h
      cases h
      exact ⟨rfl, hstart, rfl⟩
  · rw [if_neg hstart] at h
    cases h

theorem find_orfs_mem {s : List Char} {p : Nat × Nat} (hp : p ∈ find_orfs s) :
    p.1 + 3 ≤ s.length ∧ (s.drop p.1).take 3 = start_codon ∧
      ∃ k, p.2 = p.1 + 3 + 3 * k + 2 ∧ p.1 + 3 + 3 * k + 3 ≤ s.length ∧
        (s.drop (p.1 + 3 + 3 * k)).take 3 ∈ stop_codons ∧
        ∀ m, m < k → (s.drop (p.1 + 3 + 3 * m)).take 3 ∉ stop_codons := by
  unfold find_orfs at hp
  rw [List.mem_filterMap] at hp
  obtain ⟨i, hi, hf⟩ := hp
  rw [List.mem_range] at hi
  obtain ⟨hfst, hstart, hinner⟩ := orf_at_eq_some hf
  subst hfst
  obtain ⟨k, hk⟩ := orf_inner_scan_some s _ _ _ hinner
  exact ⟨by omega, hstart, k, hk⟩

/-- C1: every (start, end) record of the ORF finder has the start codon `ATG`
at offsets `start..start+2`, a stop codon at offsets `end-2..end`, and a
length `end - start + 1` divisible by 3. -/
theorem find_orfs_codon_spec (s : List Char) (hv : ValidSeq s)
    (p : Nat × Nat) (hp : p ∈ find_orfs s) :
    (s.drop p.1).take 3 = start_codon ∧
      (s.drop (p.2 - 2)).take 3 ∈ stop_codons ∧ (p.2 - p.1 + 1) % 3 = 0 := by
  obtain ⟨h3, hstart, k, hk1, hk2, hk3, hk4⟩ := find_orfs_mem hp
  refine ⟨hstart, ?_, by omega⟩
  have harith : p.2 - 2 = p.1 + 3 + 3 * k := by omega
  rw [harith]
  exact hk3

/-- Witness for C1 on `"ATGTAA"`, whose single record is `(0, 5)`. -/
theorem find_orfs_codon_spec_witness :
    (['A', 'T', 'G', 'T', 'A', 'A'].drop 0).take 3 = start_codon ∧
      (['A', 'T', 'G', 'T', 'A', 'A'].drop (5 - 2)).take 3 ∈ stop_codons ∧
      (5 - 0 + 1) % 3 = 0 :=
  find_orfs_codon_spec ['A', 'T', 'G', 'T', 'A', 'A'] (by decide) (0, 5)
    (by decide)

/-- C10: every ORF record lies inside the sequence (`end ≤ length - 1`) and
spans at least 6 bases (`end - start + 1 ≥ 6`), so sequences shorter than 6
bases yield no ORFs at all. -/
theorem find_orfs_bounds (s : List Char) :
    (∀ p ∈ find_orfs s,
      p.1 < s.length ∧ p.2 < s.length ∧ p.1 + 6 ≤ p.2 + 1) ∧
    (s.length < 6 → find_orfs s = []) := by
  have hmem : ∀ p ∈ find_orfs s,
      p.1 < s.length ∧ p.2 < s.length ∧ p.1 + 6 ≤ p.2 + 1 := by
    intro p hp
    obtain ⟨h3, _, k, hk1, hk2, _, _⟩ := find_orfs_mem hp
    omega
  refine ⟨hmem, ?_⟩
  intro h6
  by_contra hne
  obtain ⟨p, hp⟩ := List.exists_mem_of_ne_nil _ hne
  have := hmem p hp
  omega

/-- Witness for C10 on `"ATGTAA"` and its record `(0, 5)`. -/
theorem find_orfs_bounds_witness :
    ((0, 5) : Nat × Nat).1 < (['A', 'T', 'G', 'T', 'A', 'A'] : List Char).length ∧
      ((0, 5) : Nat × Nat).2 < (['A', 'T', 'G', 'T', 'A', 'A'] : List Char).length ∧
      ((0, 5) : Nat × Nat).1 + 6 ≤ ((0, 5) : Nat × Nat).2 + 1 :=
  (find_orfs_bounds ['A', 'T', 'G', 'T', 'A', 'A']).1 (0, 5) (by decide)

/-- C5: ORF records come in ascending start order, a start offset yields at
most one record, the recorded end is the first in-frame stop after the start
(no stop codon sits in-frame strictly between `start + 3` and `end - 2`), and
`find_orfs "ATGAAATAAATG" = [(0, 8)]`. -/
theorem find_orfs_order_spec (s : List Char) :
    List.Pairwise (fun p q : Nat × Nat => p.1 < q.1) (find_orfs s) ∧
    (∀ p ∈ find_orfs s, ∀ q ∈ find_orfs s, p.1 = q.1 → p = q) ∧
    (∀ p ∈ find_orfs s, ∀ m : Nat, p.1 + 3 + 3 * m + 2 < p.2 →
      (s.drop (p.1 + 3 + 3 * m)).take 3 ∉ stop_codons) ∧
    find_orfs ['A', 'T', 'G', 'A', 'A', 'A', 'T', 'A', 'A', 'A', 'T', 'G'] =
      [(0, 8)] := by
  refine ⟨?_, ?_, ?_, by decide⟩
  · unfold find_orfs
    rw [List.pairwise_filterMap]
    refine (List.pairwise_lt_range _).imp ?_
    intro a b hab x hx y hy
    have hxa := (orf_at_eq_some hx).1
    have hyb := (orf_at_eq_some hy).1
    omega
  · intro p hp q hq h
    unfold find_orfs at hp hq
    rw [List.mem_filterMap] at hp hq
    obtain ⟨i, _, hfi⟩ := hp
    obtain ⟨i', _, hfi'⟩ := hq
    have hpi := (orf_at_eq_some hfi).1
    have hqi := (orf_at_eq_some hfi').1
    subst hpi
    subst hqi
    rw [h] at hfi
    rw [hfi] at hfi'
    exact Option.some_injective _ hfi'
  · intro p hp m hm
    obtain ⟨h3, _, k, hk1, hk2, hk3, hk4⟩ := find_orfs_mem hp
    exact hk4 m (by omega)

/-- Witness for C5 at the spec's scenario `"ATGAAATAAATG"`. -/
theorem find_orfs_order_spec_witness :
    find_orfs ['A', 'T', 'G', 'A', 'A', 'A', 'T', 'A', 'A', 'A', 'T', 'G'] =
      [(0, 8)] :=
  (find_orfs_order_spec
    ['A', 'T', 'G', 'A', 'A', 'A', 'T', 'A', 'A', 'A', 'T', 'G']).2.2.2

theorem windowGCLoop_ok (s : List Char) (w : Nat) :
    ∀ (starts : List Nat) (acc : List Rat),
      (∀ st ∈ starts,
        (s.drop st).take w ≠ [] ∧ ValidSeq ((s.drop st).take w)) →
      windowGCLoop s w starts acc =
        .ok (acc ++ starts.map (fun st => gc_value ((s.drop st).take w))) := by
  intro starts
  induction starts with
  | nil => intro acc _; simp [windowGCLoop]
  | cons st rest ih =>
    intro acc h
    have h1 := h st (List.mem_cons_self st rest)
    have h2 : ∀ x ∈ rest,
        (s.drop x).take w ≠ [] ∧ ValidSeq ((s.drop x).take w) :=
      fun x hx => h x (List.mem_cons_of_mem _ hx)
    simp only [windowGCLoop]
    rw [if_neg h1.1, calculate_gc_content_valid h1.2 h1.1]
    show windowGCLoop s w rest (acc ++ [gc_value ((s.drop st).take w)]) = _
    rw [ih _ h2]
    simp

theorem window_start_lt {len w k : Nat} (hw : 1 ≤ w)
    (hk : k < (len + w - 1) / w) : k * w < len := by
  have hlen : 1 ≤ len := by
    by_contra hl
    have hz : len = 0 := by omega
    subst hz
    have h0 : (0 + w - 1) / w = 0 := Nat.div_eq_of_lt (by omega)
    omega
  have h := (Nat.le_div_iff_mul_le hw).1 (Nat.succ_le_of_lt hk)
  rw [Nat.succ_mul] at h
  omega

theorem window_ne_nil {s : List Char} {w k : Nat} (hw : 1 ≤ w)
    (hk : k * w < s.length) : (s.drop (k * w)).take w ≠ [] := by
  intro hnil
  have hlen := congrArg List.length hnil
  simp only [List.length_take, List.length_drop, List.length_nil] at hlen
  omega

theorem seqWindows_nil {w : Nat} (hw : 1 ≤ w) : seqWindows [] w = [] := by
  have h0 : (w - 1) / w = 0 := Nat.div_eq_of_lt (by omega)
  simp [seqWindows, h0]

theorem seqWindows_cons {s : List Char} {w : Nat} (hw : 1 ≤ w) (hs : s ≠ []) :
    seqWindows s w = s.take w :: seqWindows (s.drop w) w := by
  have hlen : 1 ≤ s.length := List.length_pos.2 hs
  have hnum : (s.length + w - 1) / w = ((s.drop w).length + w - 1) / w + 1 := by
    rw [List.length_drop]
    by_cases hle : s.length ≤ w
    · have h1 : (s.length + w - 1) / w = 1 :=
        Nat.div_eq_of_lt_le (by omega) (by omega)
      have h2 : (s.length - w + w - 1) / w = 0 := Nat.div_eq_of_lt (by omega)
      omega
    · have hsplit : s.length + w - 1 = (s.length - w + w - 1) + w := by omega
      rw [hsplit, Nat.add_div_right _ (by omega : 0 < w)]
  rw [seqWindows, seqWindows, hnum, List.range_succ_eq_map]
  simp only [List.map_cons, List.map_map]
  congr 1
  · simp
  · apply List.map_congr_left
    intro k hk
    simp only [Function.comp_apply, Nat.succ_eq_add_one]
    have hdd : List.drop (k * w) (List.drop w s) = List.drop (w + k * w) s :=
      List.drop_drop (k * w) w s
    rw [hdd]
    have harith : (k + 1) * w = w + k * w := by ring
    rw [harith]

theorem seqWindows_flatten {w : Nat} (hw : 1 ≤ w) :
    ∀ (n : Nat) (s : List Char), s.length ≤ n → (seqWindows s w).flatten = s := by
  intro n
  induction n with
  | zero =>
    intro s hs
    have hz : s = [] := List.length_eq_zero.1 (by omega)
    subst hz
    simp [seqWindows_nil hw]
  | succ n ih =>
    intro s hs
    by_cases hnil : s = []
    · subst hnil
      simp [seqWindows_nil hw]
    · rw [seqWindows_cons hw hnil, List.flatten_cons]
      have hdlen : (s.drop w).length ≤ n := by
        rw [List.length_drop]
        have := List.length_pos.2 hnil
        omega
      rw [ih (s.drop w) hdlen]
      exact List.take_append_drop w s

theorem seqWindows_last {w : Nat} (hw : 1 ≤ w) :
    ∀ (n : Nat) (s : List Char), s.length ≤ n → s ≠ [] →
      ((seqWindows s w).getLastD []).length =
        (if s.length % w = 0 then w else s.length % w) := by
  intro n
  induction n with
  | zero =>
    intro s hs hne
    exact absurd (List.length_eq_zero.1 (by omega)) hne
  | succ n ih =>
    intro s hs hne
    have hlen : 1 ≤ s.length := List.length_pos.2 hne
    rw [seqWindows_cons hw hne]
    by_cases hdrop : s.drop w = []
    · have hdlen : s.length - w = 0 := by
        have := congrArg List.length hdrop
        simpa [List.length_drop] using this
      rw [hdrop, seqWindows_nil hw]
      simp only [List.getLastD_cons, List.getLastD_nil]
      rw [List.take_of_length_le (by omega)]
      by_cases heq : s.length = w
      · rw [heq, Nat.mod_self]
        simp
      · have hlt : s.length < w := by omega
        rw [Nat.mod_eq_of_lt hlt, if_neg (by omega)]
    · rw [List.getLastD_cons]
      have hwle : w ≤ s.length := by
        have := List.length_pos.2 hdrop
        rw [List.length_drop] at this
        omega
      have hind := ih (s.drop w)
        (by rw [List.length_drop]; omega) hdrop
      have hdef : (seqWindows (s.drop w) w).getLastD (s.take w) =
          (seqWindows (s.drop w) w).getLastD [] := by
        rw [List.getLastD_eq_getLast?, List.getLastD_eq_getLast?]
        cases hgl : (seqWindows (s.drop w) w).getLast? with
        | none =>
          have : seqWindows (s.drop w) w = [] :=
            List.getLast?_eq_none_iff.1 hgl
          rw [seqWindows_cons hw hdrop] at this
          cases this
        | some a => simp
      rw [hdef, hind]
      have hmodeq : (s.drop w).length % w = s.length % w := by
        rw [List.length_drop]
        conv_rhs => rw [show s.length = (s.length - w) + w by omega]
        rw [Nat.add_mod_right]
      rw [List.length_drop] at hmodeq ⊢
      rw [hmodeq]

theorem calculate_window_gc_ok {s : List Char} {w : Nat} (hw : 1 ≤ w)
    (hv : ValidSeq s) :
    calculate_window_gc s (w : Int) =
      .ok ((seqWindows s w).map gc_value) := by
  unfold calculate_window_gc
  rw [if_neg (by omega : ¬((w : Int) = 0)), if_neg (by omega : ¬((w : Int) < 0))]
  simp only [Int.toNat_ofNat]
  show windowGCLoop s w ((List.range ((s.length + w - 1) / w)).map (· * w)) []
    = _
  rw [windowGCLoop_ok s w _ []]
  · simp only [seqWindows, List.map_map, List.nil_append]
    rfl
  · intro st hst
    rw [List.mem_map] at hst
    obtain ⟨k, hk, rfl⟩ := hst
    rw [List.mem_range] at hk
    have hlt : k * w < s.length := window_start_lt hw hk
    refine ⟨window_ne_nil hw hlt, ?_⟩
    intro c hc
    exact hv c (List.mem_of_mem_drop (List.mem_of_mem_take hc))

/-- C3: for a non-empty alphabet-valid sequence and `1 ≤ w ≤ length`, the
windowed-GC computation succeeds with one GC value per window; there are
`⌈length / w⌉` windows, they are the consecutive non-overlapping width-`w`
slices from offset 0 and concatenate back to the whole sequence, the last
window's length is `length mod w` (or `w` when `w` divides the length), and
each value is the exact GC percentage of its own window, computed over that
window's actual length. -/
theorem calculate_window_gc_spec (s : List Char) (w : Nat) (hv : ValidSeq s)
    (hs : s ≠ []) (hw1 : 1 ≤ w) (hw2 : w ≤ s.length) :
    calculate_window_gc s (w : Int) = .ok ((seqWindows s w).map gc_value) ∧
    ((seqWindows s w).map gc_value).length = (s.length + w - 1) / w ∧
    (seqWindows s w).flatten = s ∧
    ((seqWindows s w).getLastD []).length =
      (if s.length % w = 0 then w else s.length % w) := by
  refine ⟨calculate_window_gc_ok hw1 hv, ?_, ?_, ?_⟩
  · simp [seqWindows]
  · exact seqWindows_flatten hw1 s.length s le_rfl
  · exact seqWindows_last hw1 s.length s le_rfl hs

/-- Witness for C3 at the spec's scenario `windowedGC("ACGTACGTA", 4)`. -/
theorem calculate_window_gc_spec_witness :
    calculate_window_gc ['A', 'C', 'G', 'T', 'A', 'C', 'G', 'T', 'A']
        ((4 : Nat) : Int) =
      .ok ((seqWindows ['A', 'C', 'G', 'T', 'A', 'C', 'G', 'T', 'A'] 4).map
        gc_value) :=
  (calculate_window_gc_spec ['A', 'C', 'G', 'T', 'A', 'C', 'G', 'T', 'A'] 4
    (by decide) (by decide) (by decide) (by decide)).1

/-- Counterexample to C2 as stated: for the sequence `"A"` and
`windowSize = 2 > length`, `calculate_window_gc` returns a single-window
result instead of failing with any error. -/
theorem calculate_window_gc_no_reject :
    calculate_window_gc ['A'] 2 = .ok [0] ∧
      ∀ e : PyError, calculate_window_gc ['A'] 2 ≠ .error e := by
  have h : calculate_window_gc ['A'] 2 = .ok [0] := by with_unfolding_all rfl
  refine ⟨h, fun e he => ?_⟩
  rw [h] at he
  cases he

/-- C2 amended: rejection of out-of-range window sizes is performed by the
caller `get_valid_window_size`, which only ever returns a value `w` with
`0 < w ≤ sequence_length`; `calculate_window_gc` itself fails only for
`windowSize = 0` (Python's `range` rejects a zero step), returns the empty
list for a negative `windowSize`, and for `windowSize > length` on a
non-empty valid sequence returns one window covering the whole sequence. -/
theorem window_size_validation (s : List Char) (len : Nat)
    (inputs : List (Option Int)) (w : Int) :
    (get_valid_window_size len inputs = some w → 0 < w ∧ w ≤ (len : Int)) ∧
    calculate_window_gc s 0 = .error .rangeStepZero ∧
    (w < 0 → calculate_window_gc s w = .ok []) ∧
    (ValidSeq s → s ≠ [] → (s.length : Int) < w →
      calculate_window_gc s w = .ok [gc_value s]) := by
  have hget : ∀ inp : List (Option Int),
      get_valid_window_size len inp = some w → 0 < w ∧ w ≤ (len : Int) := by
    intro inp
    induction inp with
    | nil => intro h; cases h
    | cons x rest ih =>
      cases x with
      | none =>
        intro h
        exact ih (by simpa [get_valid_window_size] using h)
      | some v =>
        intro h
        simp only [get_valid_window_size] at h
        by_cases hv : 0 < v ∧ v ≤ (len : Int)
        · rw [if_pos hv] at h
          injection h with h'
          subst h'
          exact hv
        · rw [if_neg hv] at h
          exact ih h
  refine ⟨hget inputs, by simp [calculate_window_gc], ?_, ?_⟩
  · intro hw
    unfold calculate_window_gc
    rw [if_neg (by omega), if_pos hw]
  · intro hvv hne hlen
    have hlen1 : 1 ≤ s.length := List.length_pos.2 hne
    unfold calculate_window_gc
    rw [if_neg (by omega : ¬(w = 0)), if_neg (by omega : ¬(w < 0))]
    have hnum : (s.length + w.toNat - 1) / w.toNat = 1 :=
      Nat.div_eq_of_lt_le (by omega) (by omega)
    show windowGCLoop s w.toNat
      ((List.range ((s.length + w.toNat - 1) / w.toNat)).map (· * w.toNat)) []
      = _
    rw [hnum]
    have hr1 : (List.range 1).map (· * w.toNat) = [0] := by
      have : List.range 1 = [0] := rfl
      rw [this]
      simp
    rw [hr1]
    simp only [windowGCLoop]
    have htake : (s.drop 0).take w.toNat = s := by
      rw [List.drop_zero]
      exact List.take_of_length_le (by omega)
    rw [htake, if_neg hne, calculate_gc_content_valid hvv hne]
    show windowGCLoop s w.toNat [] ([] ++ [gc_value s]) = _
    simp [windowGCLoop]

/-- Witness for the amended C2: the interactive validator skips a too-large
entry and an unparseable entry before accepting 3 for a length-5 sequence,
and a negative window size yields the empty result list. -/
theorem window_size_validation_witness :
    (0 < (3 : Int) ∧ (3 : Int) ≤ ((5 : Nat) : Int)) ∧
      calculate_window_gc ['A'] (-1) = .ok [] := by
  constructor
  · exact (window_size_validation [] 5 [some 7, none, some 3] 3).1 (by decide)
  · exact (window_size_validation ['A'] 0 [] (-1)).2.2.1 (by decide)
